import Mathlib

/-!
Shallow embedding of the sudoku solver repository: the grid model of
models.py (Cell, Line, Square, Field) and the solving engine of solver.py
(tier-1 and tier-2 candidate deduction, the propagation loop `solve`, and the
stack-based backtracking search `brute_force`).  Python sets of small
integers become `Finset ℕ`, `None` becomes `Option.none`, exceptions become
`Except SolveError`, and in-place cell mutation becomes explicit state
passing of the whole `Field` value.  A separate store-indexed variant of the
backtracking loop makes the deep-copy discipline of the source observable.
-/

namespace Sudoku

/-- Embeds `Cell` from models.py: an optional value plus the cell's column and
row coordinates. -/
structure Cell where
  value : Option ℕ
  column : ℕ
  row : ℕ
deriving DecidableEq

/-- Default cell handed back by defensive indexing (the Python source would
raise IndexError instead; every theorem works on well-formed 9 by 9 fields
where all accesses are in range). -/
def defaultCell : Cell := ⟨none, 0, 0⟩

/-- Embeds `ALLOWED_VALUES - {None}` from models.py. -/
def allowedNine : Finset ℕ := {1, 2, 3, 4, 5, 6, 7, 8, 9}

/-- Embeds the `Cell.square_coords` property: `(column // 3, row // 3)`. -/
def Cell.square_coords (c : Cell) : ℕ × ℕ := (c.column / 3, c.row / 3)

/-- Embeds `Line` from models.py (a row or a column of a field). -/
structure Line where
  cells : List Cell
deriving DecidableEq

/-- Embeds `Line.is_valid`: every cell has a value and the set of the cells'
values has cardinality 9. -/
def Line.is_valid (l : Line) : Bool :=
  l.cells.all (fun c => c.value.isSome) &&
    ((l.cells.map Cell.value).toFinset.card == 9)

/-- Embeds `Line.get_missing_values`: the allowed values minus the populated
ones. -/
def Line.get_missing_values (l : Line) : Finset ℕ :=
  allowedNine \ (l.cells.filterMap Cell.value).toFinset

/-- Embeds `Square` from models.py (a 3 by 3 box of a field). -/
structure Square where
  rows : List (List Cell)
  column : ℕ
  row : ℕ
deriving DecidableEq

/-- Embeds the `Square.cells` generator: the cells of the box, row by row. -/
def Square.cellsList (s : Square) : List Cell := s.rows.flatten

/-- Embeds `Square.is_valid`. -/
def Square.is_valid (s : Square) : Bool :=
  s.cellsList.all (fun c => c.value.isSome) &&
    ((s.cellsList.map Cell.value).toFinset.card == 9)

/-- Embeds `Square.get_missing_values`. -/
def Square.get_missing_values (s : Square) : Finset ℕ :=
  allowedNine \ (s.cellsList.filterMap Cell.value).toFinset

/-- Embeds `Field` from models.py: the 9 by 9 matrix of cells. -/
structure Field where
  data : List (List Cell)
deriving DecidableEq

/-- Embeds `SQUARES_COORDINATES = list(product([[0, 3], [3, 6], [6, 9]],
repeat=2))`: each entry is (row slice bounds, column slice bounds). -/
def squaresCoordinates : List ((ℕ × ℕ) × (ℕ × ℕ)) :=
  [((0, 3), (0, 3)), ((0, 3), (3, 6)), ((0, 3), (6, 9)),
   ((3, 6), (0, 3)), ((3, 6), (3, 6)), ((3, 6), (6, 9)),
   ((6, 9), (0, 3)), ((6, 9), (3, 6)), ((6, 9), (6, 9))]

/-- Embeds `Field.get_cell(column, row) = data[row][column]`. -/
def Field.get_cell (f : Field) (column row : ℕ) : Cell :=
  (f.data.getD row []).getD column defaultCell

/-- Embeds `Field.get_row`. -/
def Field.get_row (f : Field) (index : ℕ) : Line := ⟨f.data.getD index []⟩

/-- Embeds `Field.get_column`. -/
def Field.get_column (f : Field) (index : ℕ) : Line :=
  ⟨(List.range 9).map (fun i => f.get_cell index i)⟩

/-- Embeds `Field.get_square(column, row)`: look the slice bounds up in
`squaresCoordinates` at `row * 3 + column` and slice the backing matrix. -/
def Field.get_square (f : Field) (column row : ℕ) : Square :=
  let comb := squaresCoordinates.getD (row * 3 + column) ((0, 0), (0, 0))
  let rowsSlice := (f.data.drop comb.1.1).take (comb.1.2 - comb.1.1)
  ⟨rowsSlice.map (fun r => (r.drop comb.2.1).take (comb.2.2 - comb.2.1)),
   column, row⟩

/-- Embeds `Field.get_square_from_coordinates`. -/
def Field.get_square_from_coordinates (f : Field) (column row : ℕ) : Square :=
  f.get_square (column / 3) (row / 3)

/-- Embeds the `Field.cells` generator: all 81 cells in row-major order. -/
def Field.cellsList (f : Field) : List Cell := f.data.flatten

/-- Embeds `Field.has_empty_cells`. -/
def Field.has_empty_cells (f : Field) : Bool :=
  f.cellsList.any (fun c => c.value.isNone)

/-- Embeds the `Field.rows` generator. -/
def Field.rowsList (f : Field) : List Line := (List.range 9).map f.get_row

/-- Embeds the `Field.columns` generator. -/
def Field.columnsList (f : Field) : List Line :=
  (List.range 9).map f.get_column

/-- Embeds the `Field.squares` generator: `get_square(i, j)` for `i` the box
column (outer loop) and `j` the box row (inner loop). -/
def Field.squaresList (f : Field) : List Square :=
  (List.range 3).flatMap
    (fun i => (List.range 3).map (fun j => f.get_square i j))

/-- Embeds `Field.is_valid`: all rows, all columns and all squares valid. -/
def Field.is_valid (f : Field) : Bool :=
  f.rowsList.all Line.is_valid && f.columnsList.all Line.is_valid &&
    f.squaresList.all Square.is_valid

/-- Embeds the in-place assignment `field.get_cell(column, row).value = v`:
only the `value` attribute of the addressed cell changes. -/
def Field.setCellValue (f : Field) (column row : ℕ) (v : Option ℕ) : Field :=
  ⟨f.data.set row
    ((f.data.getD row []).set column { f.get_cell column row with value := v })⟩

/-- Embeds `Field.init_from_data`: zero denotes an empty cell, and each cell
records its own column and row indices. -/
def Field.init_from_data (data : List (List ℕ)) : Field :=
  ⟨data.mapIdx (fun rowIndex r =>
     r.mapIdx (fun columnIndex v =>
       ⟨if v = 0 then none else some v, columnIndex, rowIndex⟩))⟩

/-- Well-formedness of a field, as established by `init_from_data`: a 9 by 9
matrix whose cells record their own coordinates. -/
def Field.WF (f : Field) : Prop :=
  f.data.length = 9 ∧ (∀ r ∈ f.data, r.length = 9) ∧
    ∀ r < 9, ∀ c < 9, (f.get_cell c r).column = c ∧ (f.get_cell c r).row = r

instance (f : Field) : Decidable f.WF := by
  unfold Field.WF; infer_instance

/-- Number of empty cells of a field. -/
def Field.emptyCount (f : Field) : ℕ :=
  f.cellsList.countP (fun c => c.value.isNone)

/-- Error kinds of solver.py: `ValueError` raised by `get_possible_values` on
a filled cell, and the `AssertionError` raised when an empty cell has no
candidate left. -/
inductive SolveError where
  | invalidOperation
  | inconsistent
deriving DecidableEq

instance exceptDecEq {ε α : Type} [DecidableEq ε] [DecidableEq α] :
    DecidableEq (Except ε α)
  | .error a, .error b =>
    if h : a = b then .isTrue (by rw [h])
    else .isFalse (fun hc => h (Except.noConfusion hc id))
  | .error _, .ok _ => .isFalse (fun hc => Except.noConfusion hc)
  | .ok _, .error _ => .isFalse (fun hc => Except.noConfusion hc)
  | .ok a, .ok b =>
    if h : a = b then .isTrue (by rw [h])
    else .isFalse (fun hc => h (Except.noConfusion hc id))

/-- Embeds `SudokuSolver._get_possible_value_tier_1`: intersection of the
missing values of the containing row, column and square; the empty set for a
filled cell. -/
def get_possible_value_tier_1 (field : Field) (cell : Cell) : Finset ℕ :=
  match cell.value with
  | some _ => ∅
  | none =>
    let rowMissing := (field.get_row cell.row).get_missing_values
    let columnMissing := (field.get_column cell.column).get_missing_values
    let squareMissing :=
      (field.get_square_from_coordinates cell.column cell.row).get_missing_values
    rowMissing ∩ columnMissing ∩ squareMissing

/-- The set `p_value_cells_rows` built by the horizontal pass of tier 2: the
rows, inside the peer square, of the cells having the value among their
tier-1 candidates. -/
def rowSetFor (field : Field) (sq : Square) (v : ℕ) : Finset ℕ :=
  ((sq.cellsList.filter
      (fun sc => decide (v ∈ get_possible_value_tier_1 field sc))).map
    Cell.row).toFinset

/-- The set `p_value_cells_cols` built by the vertical pass of tier 2. -/
def colSetFor (field : Field) (sq : Square) (v : ℕ) : Finset ℕ :=
  ((sq.cellsList.filter
      (fun sc => decide (v ∈ get_possible_value_tier_1 field sc))).map
    Cell.column).toFinset

/-- Embeds `SudokuSolver._get_possible_value_tier_2`.  The source iterates
over a copy of the candidate set and removes each value whose removal test
succeeds; the test never reads the mutated set, so one pass over a peer
square is exactly the `Finset.filter` below, and the passes are folded over
the squares of the field in the order the `Field.squares` generator yields
them.  The source test `len(rows) == 1 and next(iter(rows)) == cell.row` says
the set of rows is the singleton of the cell's row. -/
def get_possible_value_tier_2 (field : Field) (cell : Cell) : Finset ℕ :=
  match cell.value with
  | some _ => ∅
  | none =>
    let start := get_possible_value_tier_1 field cell
    let csc := cell.square_coords.1
    let csr := cell.square_coords.2
    let afterH := field.squaresList.foldl
      (fun s sq =>
        if sq.row ≠ csr ∨ sq.column = csc then s
        else s.filter (fun v => ¬ rowSetFor field sq v = {cell.row})) start
    field.squaresList.foldl
      (fun s sq =>
        if sq.row = csr ∨ sq.column ≠ csc then s
        else s.filter (fun v => ¬ colSetFor field sq v = {cell.column})) afterH

/-- Embeds `SudokuSolver.get_possible_values`: `ValueError` on a filled cell,
otherwise the tier-2 set, with the `assert len(possible_values) > 0` fatal
signal rendered as the `inconsistent` error. -/
def get_possible_values (field : Field) (cell : Cell) :
    Except SolveError (Finset ℕ) :=
  match cell.value with
  | some _ => .error .invalidOperation
  | none =>
    let possible := get_possible_value_tier_2 field cell
    if 0 < possible.card then .ok possible else .error .inconsistent

/-- Iteration over a Python set of candidate values: every set the solver
iterates over is a subset of `allowedNine`, and a CPython set of small
integers yields them in ascending order, so iteration is enumeration of the
values below 10 that belong to the set. -/
def iterSet (s : Finset ℕ) : List ℕ :=
  (List.range 10).filter (fun v => decide (v ∈ s))

/-- The 81 cell positions (row, column) in the row-major order in which the
`Field.cells` generator yields cells. -/
def cellPositions : List (ℕ × ℕ) :=
  (List.range 9).flatMap (fun r => (List.range 9).map (fun c => (r, c)))

/-- One step of the body of a `solve` cycle at one cell position: skip a
filled cell, otherwise ask the deduction engine and assign in place when
exactly one candidate remains, marking that an update was found. -/
def cycleStep (st : Field × Bool) (p : ℕ × ℕ) :
    Except SolveError (Field × Bool) :=
  let f := st.1
  let cell := f.get_cell p.2 p.1
  match cell.value with
  | some _ => .ok st
  | none =>
    match get_possible_values f cell with
    | .error e => .error e
    | .ok possible =>
      if possible.card = 1 then
        .ok (f.setCellValue p.2 p.1 (some ((iterSet possible).headD 0)), true)
      else .ok st

/-- The body of one `while` cycle of `SudokuSolver.solve`: fold `cycleStep`
over the cells in row-major order, starting with no update found. -/
def solveCycleAux (st : Field × Bool) :
    List (ℕ × ℕ) → Except SolveError (Field × Bool)
  | [] => .ok st
  | p :: rest =>
    match cycleStep st p with
    | .error e => .error e
    | .ok st1 => solveCycleAux st1 rest

/-- One full scan cycle of the propagation loop. -/
def solveCycle (field : Field) : Except SolveError (Field × Bool) :=
  solveCycleAux (field, false) cellPositions

/-- The `while updates_found` loop of `SudokuSolver.solve`, with explicit
fuel; `none` means the fuel ran out, which never happens on a well-formed
field fed enough fuel, since each repeated cycle fills at least one cell. -/
def solveLoop : ℕ → Field → Option (Except SolveError Field)
  | 0, _ => none
  | fuel + 1, field =>
    match solveCycle field with
    | .error e => some (.error e)
    | .ok (f1, true) => solveLoop fuel f1
    | .ok (f1, false) => some (.ok f1)

/-- Embeds the propagation-loop part of `SudokuSolver.solve` (the rendering
and the optional hand-off to brute force that follow it are display and
dispatch, outside the loop itself).  The fuel `emptyCount + 1` is enough for
any well-formed field. -/
def solve (field : Field) : Option (Except SolveError Field) :=
  solveLoop (field.emptyCount + 1) field

/-- First empty cell of a field in row-major order, the only cell
`SudokuSolver.brute_force` branches on for a popped state. -/
def Field.firstEmptyCell (f : Field) : Option Cell :=
  f.cellsList.find? (fun c => c.value.isNone)

/-- The inner `for value in possible_values` loop of `brute_force` for one
popped grid: returns the list of copies pushed (in push order) and the
solution, if one full valid copy was reached.  Assigning into the deep copy
is `setCellValue` on the field value.  Candidates are visited in ascending
order, the order a CPython set of small integers iterates in. -/
def processValues (f : Field) (cell : Cell) :
    List ℕ → List Field × Option Field
  | [] => ([], none)
  | v :: rest =>
    let fc := f.setCellValue cell.column cell.row (some v)
    if fc.has_empty_cells then
      let pr := processValues f cell rest
      (fc :: pr.1, pr.2)
    else if fc.is_valid then ([], some fc)
    else processValues f cell rest

/-- The body of one iteration of the `while fields_to_check` loop of
`brute_force` for the popped grid: find the first empty cell; if the
deduction engine fails (the `except AssertionError: break`), discard the
branch; otherwise process every candidate value of that one cell.  The cell
comes from `firstEmptyCell`, so its value is `none` and `get_possible_values`
can only fail with the `inconsistent` error here. -/
def bruteStep (f : Field) : List Field × Option Field :=
  match f.firstEmptyCell with
  | none => ([], none)
  | some cell =>
    match get_possible_values f cell with
    | .error _ => ([], none)
    | .ok possible => processValues f cell (iterSet possible)

/-- Termination measure of the backtracking stack: pushed successors each
have one fewer empty cell than the popped grid, and there are at most nine of
them, so popping strictly shrinks this sum. -/
def stackMeasure (stack : List Field) : ℕ :=
  (stack.map (fun g => 10 ^ g.emptyCount)).sum

/-- The `while fields_to_check` loop of `brute_force` with explicit fuel:
pop the top of the stack, run `bruteStep`, push the successors (Python
appends them in order and pops from the end, so on a head-of-list stack they
land reversed), and stop when a solution is found or the stack empties.
`none` means the fuel ran out, which never happens with fuel above
`stackMeasure`. -/
def bruteLoop : ℕ → List Field → Option (Option Field)
  | 0, _ => none
  | _ + 1, [] => some none
  | fuel + 1, f :: stack =>
    match bruteStep f with
    | (_, some sol) => some (some sol)
    | (pushed, none) => bruteLoop fuel (pushed.reverse ++ stack)

/-- Embeds `SudokuSolver.brute_force`: start from a stack holding one deep
copy of the caller's field and run the search loop (with fuel that the
termination theorem shows is never exhausted). -/
def brute_force (field : Field) : Option (Option Field) :=
  bruteLoop (stackMeasure [field] + 1) [field]

/-! Concrete grids used to exercise the theorems. -/

/-- A complete valid grid. -/
def fComplete : Field := Field.init_from_data
  [[1, 2, 3, 4, 5, 6, 7, 8, 9],
   [4, 5, 6, 7, 8, 9, 1, 2, 3],
   [7, 8, 9, 1, 2, 3, 4, 5, 6],
   [2, 3, 4, 5, 6, 7, 8, 9, 1],
   [5, 6, 7, 8, 9, 1, 2, 3, 4],
   [8, 9, 1, 2, 3, 4, 5, 6, 7],
   [3, 4, 5, 6, 7, 8, 9, 1, 2],
   [6, 7, 8, 9, 1, 2, 3, 4, 5],
   [9, 1, 2, 3, 4, 5, 6, 7, 8]]

/-- The same grid with the single cell (0, 0) cleared. -/
def fOneEmpty : Field := Field.init_from_data
  [[0, 2, 3, 4, 5, 6, 7, 8, 9],
   [4, 5, 6, 7, 8, 9, 1, 2, 3],
   [7, 8, 9, 1, 2, 3, 4, 5, 6],
   [2, 3, 4, 5, 6, 7, 8, 9, 1],
   [5, 6, 7, 8, 9, 1, 2, 3, 4],
   [8, 9, 1, 2, 3, 4, 5, 6, 7],
   [3, 4, 5, 6, 7, 8, 9, 1, 2],
   [6, 7, 8, 9, 1, 2, 3, 4, 5],
   [9, 1, 2, 3, 4, 5, 6, 7, 8]]

/-- The same grid with the two cells (0, 0) and (1, 0) cleared. -/
def fTwoEmpty : Field := Field.init_from_data
  [[0, 0, 3, 4, 5, 6, 7, 8, 9],
   [4, 5, 6, 7, 8, 9, 1, 2, 3],
   [7, 8, 9, 1, 2, 3, 4, 5, 6],
   [2, 3, 4, 5, 6, 7, 8, 9, 1],
   [5, 6, 7, 8, 9, 1, 2, 3, 4],
   [8, 9, 1, 2, 3, 4, 5, 6, 7],
   [3, 4, 5, 6, 7, 8, 9, 1, 2],
   [6, 7, 8, 9, 1, 2, 3, 4, 5],
   [9, 1, 2, 3, 4, 5, 6, 7, 8]]

/-- An inconsistent grid: the empty cell (8, 0) must hold 9 by its row, but
its column already holds 9, so no candidate is left for it. -/
def fBad : Field := Field.init_from_data
  [[1, 2, 3, 4, 5, 6, 7, 8, 0],
   [0, 0, 0, 0, 0, 0, 0, 0, 9],
   [0, 0, 0, 0, 0, 0, 0, 0, 0],
   [0, 0, 0, 0, 0, 0, 0, 0, 0],
   [0, 0, 0, 0, 0, 0, 0, 0, 0],
   [0, 0, 0, 0, 0, 0, 0, 0, 0],
   [0, 0, 0, 0, 0, 0, 0, 0, 0],
   [0, 0, 0, 0, 0, 0, 0, 0, 0],
   [0, 0, 0, 0, 0, 0, 0, 0, 0]]

/-! Helper lemmas. -/

/-- Folding steps that never add elements only shrinks a finite set. -/
theorem foldl_shrink {α : Type} (g : Finset ℕ → α → Finset ℕ)
    (hg : ∀ s a, g s a ⊆ s) :
    ∀ (l : List α) (t : Finset ℕ), l.foldl g t ⊆ t
  | [], _ => Finset.Subset.refl _
  | a :: l, t => Finset.Subset.trans (foldl_shrink g hg l (g t a)) (hg t a)

/-- Tier 2 refines tier 1 (shared helper behind claim C6). -/
theorem tier2_subset_tier1 (field : Field) (cell : Cell) :
    get_possible_value_tier_2 field cell ⊆
      get_possible_value_tier_1 field cell := by
  unfold get_possible_value_tier_2
  cases hv : cell.value with
  | some v => simp [get_possible_value_tier_1, hv]
  | none =>
    refine Finset.Subset.trans (foldl_shrink _ ?_ _ _)
      (foldl_shrink _ ?_ _ _) <;>
    · intro s sq
      dsimp only
      split
      · exact Finset.Subset.refl s
      · exact Finset.filter_subset _ s

/-- Missing values of a line sit inside the nine allowed values. -/
theorem line_missing_subset (l : Line) :
    l.get_missing_values ⊆ allowedNine :=
  Finset.sdiff_subset

/-- Tier-1 candidates sit inside the nine allowed values. -/
theorem tier1_subset_allowed (field : Field) (cell : Cell) :
    get_possible_value_tier_1 field cell ⊆ allowedNine := by
  unfold get_possible_value_tier_1
  cases hv : cell.value with
  | some v => simp
  | none =>
    intro v hvmem
    have h1 := Finset.mem_inter.mp hvmem
    exact line_missing_subset _ (Finset.mem_inter.mp h1.1).1

/-! Claim theorems. -/

/-- C6: for every grid and every empty cell, the tier-2 candidate set is a
subset of the tier-1 candidate set for the same cell and grid state: the
tier-2 pass only removes values from the tier-1 set, never adds any. -/
theorem C6_tier2_subset_tier1 (field : Field) (cell : Cell) :
    get_possible_value_tier_2 field cell ⊆
      get_possible_value_tier_1 field cell :=
  tier2_subset_tier1 field cell

/-- C2: `get_possible_values` fails with the InvalidOperation error exactly
when the cell already holds a value; on an empty cell it fails with the
Inconsistent-state error when the tier-2 candidate set is empty and otherwise
returns that non-empty set. -/
theorem C2_get_possible_values_spec (field : Field) (cell : Cell) :
    (get_possible_values field cell = .error .invalidOperation ↔
      cell.value ≠ none) ∧
    (cell.value = none →
      (get_possible_value_tier_2 field cell = ∅ →
        get_possible_values field cell = .error .inconsistent) ∧
      (get_possible_value_tier_2 field cell ≠ ∅ →
        get_possible_values field cell =
          .ok (get_possible_value_tier_2 field cell))) := by
  unfold get_possible_values
  cases hv : cell.value with
  | some v => simp
  | none =>
    simp only [ne_eq, not_true_eq_false, iff_false, forall_const, true_and]
    constructor
    · split
      · simp
      · simp
    · constructor
      · intro h
        simp [h]
      · intro h
        have : 0 < (get_possible_value_tier_2 field cell).card :=
          Finset.card_pos.mpr (Finset.nonempty_iff_ne_empty.mpr h)
        simp [this]

/-- C2 witness: on a concrete grid with an empty cell whose tier-2 set is the
non-empty set of candidates, the entry point returns that set. -/
theorem C2_witness :
    get_possible_values fTwoEmpty (fTwoEmpty.get_cell 0 0) =
      .ok (get_possible_value_tier_2 fTwoEmpty (fTwoEmpty.get_cell 0 0)) :=
  ((C2_get_possible_values_spec fTwoEmpty (fTwoEmpty.get_cell 0 0)).2
    (by decide)).2 (by decide)

/-- C5: for an empty cell the tier-1 candidate set is the intersection of the
missing values of the cell's row, column and containing box, where the
missing values of a line are exactly the allowed values no cell of the line
holds; a filled cell gets the empty set rather than a failure. -/
theorem C5_tier1_spec (field : Field) (cell : Cell) :
    (cell.value = none → ∀ v,
      (v ∈ get_possible_value_tier_1 field cell ↔
        v ∈ (field.get_row cell.row).get_missing_values ∧
        v ∈ (field.get_column cell.column).get_missing_values ∧
        v ∈ (field.get_square_from_coordinates cell.column
              cell.row).get_missing_values)) ∧
    (∀ l : Line, ∀ v, (v ∈ l.get_missing_values ↔
      v ∈ allowedNine ∧ ∀ c ∈ l.cells, c.value ≠ some v)) ∧
    (cell.value ≠ none → get_possible_value_tier_1 field cell = ∅) := by
  refine ⟨fun hv v => ?_, fun l v => ?_, fun hv => ?_⟩
  · unfold get_possible_value_tier_1
    rw [hv]
    simp only [Finset.mem_inter]
    tauto
  · unfold Line.get_missing_values
    rw [Finset.mem_sdiff, List.mem_toFinset, List.mem_filterMap]
    constructor
    · rintro ⟨ha, hnone⟩
      exact ⟨ha, fun c hc hval => hnone ⟨c, hc, hval⟩⟩
    · rintro ⟨ha, hall⟩
      exact ⟨ha, fun ⟨c, hc, hval⟩ => hall c hc hval⟩
  · unfold get_possible_value_tier_1
    cases hcv : cell.value with
    | some v => rfl
    | none => exact absurd hcv hv

/-- C5 witness: instantiated on a concrete grid at the empty cell (0, 0),
value 1 is a tier-1 candidate exactly because it is missing from its row,
column and box. -/
theorem C5_witness :
    1 ∈ get_possible_value_tier_1 fTwoEmpty (fTwoEmpty.get_cell 0 0) ↔
      1 ∈ (fTwoEmpty.get_row (fTwoEmpty.get_cell 0 0).row).get_missing_values ∧
      1 ∈ (fTwoEmpty.get_column
            (fTwoEmpty.get_cell 0 0).column).get_missing_values ∧
      1 ∈ (fTwoEmpty.get_square_from_coordinates
            (fTwoEmpty.get_cell 0 0).column
            (fTwoEmpty.get_cell 0 0).row).get_missing_values :=
  (C5_tier1_spec fTwoEmpty (fTwoEmpty.get_cell 0 0)).1 (by decide) 1

/-- Spec-side reading of unit validity: all cells filled and the values
pairwise distinct. -/
def allFilledPairwiseDistinct (cells : List Cell) : Prop :=
  (∀ c ∈ cells, c.value ≠ none) ∧
    (cells.map Cell.value).Pairwise (· ≠ ·)

/-- The validity check of a nine-cell unit agrees with the spec reading. -/
theorem cells_check_iff (cells : List Cell) (hlen : cells.length = 9) :
    (cells.all (fun c => c.value.isSome) &&
      ((cells.map Cell.value).toFinset.card == 9)) = true ↔
    allFilledPairwiseDistinct cells := by
  rw [Bool.and_eq_true, List.all_eq_true, beq_iff_eq]
  unfold allFilledPairwiseDistinct
  have hlen2 : (cells.map Cell.value).length = 9 := by simp [hlen]
  constructor
  · rintro ⟨hfill, hcard⟩
    refine ⟨fun c hc => Option.isSome_iff_ne_none.mp (hfill c hc), ?_⟩
    rw [List.card_toFinset] at hcard
    have heq : (cells.map Cell.value).dedup = cells.map Cell.value :=
      (List.dedup_sublist _).eq_of_length (by rw [hcard, hlen2])
    have hnd := List.nodup_dedup (cells.map Cell.value)
    rw [heq] at hnd
    exact hnd
  · rintro ⟨hfill, hpair⟩
    refine ⟨fun c hc => Option.isSome_iff_ne_none.mpr (hfill c hc), ?_⟩
    have hnd : (cells.map Cell.value).Nodup := hpair
    rw [List.card_toFinset, List.dedup_eq_self.mpr hnd, hlen2]

/-- Row views of a well-formed field have nine cells. -/
theorem WF_row_length {f : Field} (h : f.WF) {i : ℕ} (hi : i < 9) :
    (f.get_row i).cells.length = 9 := by
  apply h.2.1
  have hi2 : i < f.data.length := by rw [h.1]; exact hi
  rw [Field.get_row]
  rw [List.getD_eq_getElem _ _ hi2]
  exact List.getElem_mem hi2

/-- Column views always have nine cells. -/
theorem column_length (f : Field) (i : ℕ) :
    (f.get_column i).cells.length = 9 := by
  simp [Field.get_column]

/-- The slice-bound table at a valid box index. -/
theorem squaresCoordinates_getD :
    ∀ i < 3, ∀ j < 3, squaresCoordinates.getD (j * 3 + i) ((0, 0), (0, 0)) =
      ((3 * j, 3 * j + 3), (3 * i, 3 * i + 3)) := by
  decide

/-- A flattened three-by-three matrix has nine entries. -/
theorem flatten_length_nine {l : List (List Cell)} (h3 : l.length = 3)
    (hall : ∀ r ∈ l, r.length = 3) : l.flatten.length = 9 := by
  match l, h3 with
  | [a, b, c], _ =>
    have ha := hall a (by simp)
    have hb := hall b (by simp)
    have hc := hall c (by simp)
    simp [ha, hb, hc]

/-- Square views of a well-formed field have nine cells. -/
theorem WF_square_length {f : Field} (h : f.WF) {i j : ℕ} (hi : i < 3)
    (hj : j < 3) : (f.get_square i j).cellsList.length = 9 := by
  unfold Field.get_square
  rw [squaresCoordinates_getD i hi j hj]
  simp only [Square.cellsList]
  apply flatten_length_nine
  · simp only [List.length_map, List.length_take, List.length_drop, h.1]
    omega
  · intro r hr
    simp only [List.mem_map] at hr
    obtain ⟨r0, hr0, rfl⟩ := hr
    have hr0mem : r0 ∈ f.data :=
      List.mem_of_mem_drop (List.mem_of_mem_take hr0)
    have h9 := h.2.1 r0 hr0mem
    simp only [List.length_take, List.length_drop, h9]
    omega

/-- An `all` over a mapped range is a bounded universal. -/
theorem all_map_range {α : Type} {n : ℕ} {g : ℕ → α} {p : α → Bool} :
    (((List.range n).map g).all p = true) ↔ ∀ i < n, p (g i) = true := by
  rw [List.all_eq_true]
  constructor
  · intro h i hi
    exact h _ (List.mem_map_of_mem g (List.mem_range.mpr hi))
  · intro h x hx
    rw [List.mem_map] at hx
    obtain ⟨i, hi, rfl⟩ := hx
    exact h i (List.mem_range.mp hi)

/-- An `all` over the nine squares is a bounded universal over box indices. -/
theorem all_squares_iff {f : Field} {p : Square → Bool} :
    (f.squaresList.all p = true) ↔
      ∀ i < 3, ∀ j < 3, p (f.get_square i j) = true := by
  unfold Field.squaresList
  rw [List.all_eq_true]
  constructor
  · intro h i hi j hj
    refine h _ ?_
    rw [List.mem_flatMap]
    exact ⟨i, List.mem_range.mpr hi,
      List.mem_map_of_mem _ (List.mem_range.mpr hj)⟩
  · intro h sq hsq
    rw [List.mem_flatMap] at hsq
    obtain ⟨i, hi, hmem⟩ := hsq
    rw [List.mem_map] at hmem
    obtain ⟨j, hj, rfl⟩ := hmem
    exact h i (List.mem_range.mp hi) j (List.mem_range.mp hj)

/-- Grid validity decomposes into the validity of each row, column and
square view. -/
theorem field_is_valid_iff (f : Field) :
    f.is_valid = true ↔
      ((∀ i < 9, (f.get_row i).is_valid = true) ∧
       (∀ i < 9, (f.get_column i).is_valid = true) ∧
       (∀ i < 3, ∀ j < 3, (f.get_square i j).is_valid = true)) := by
  unfold Field.is_valid
  rw [Bool.and_eq_true, Bool.and_eq_true]
  unfold Field.rowsList Field.columnsList
  rw [all_map_range, all_map_range, all_squares_iff]
  tauto

/-- C8: on a well-formed grid, `is_valid` holds if and only if every row,
every column and every box has all nine cells filled with pairwise distinct
values; in particular a grid with a duplicated fixed value inside one row is
never reported valid.  `is_valid` is a pure function of the grid value. -/
theorem C8_is_valid_spec (f : Field) (hwf : f.WF) :
    (f.is_valid = true ↔
      ((∀ i < 9, allFilledPairwiseDistinct (f.get_row i).cells) ∧
       (∀ i < 9, allFilledPairwiseDistinct (f.get_column i).cells) ∧
       (∀ i < 3, ∀ j < 3,
         allFilledPairwiseDistinct (f.get_square i j).cellsList))) ∧
    ((∃ i, i < 9 ∧ ∃ j, ∃ k, j < k ∧ k < 9 ∧ (f.get_cell j i).value ≠ none ∧
        (f.get_cell j i).value = (f.get_cell k i).value) →
      f.is_valid = false) := by
  have hmain : f.is_valid = true ↔
      ((∀ i < 9, allFilledPairwiseDistinct (f.get_row i).cells) ∧
       (∀ i < 9, allFilledPairwiseDistinct (f.get_column i).cells) ∧
       (∀ i < 3, ∀ j < 3,
         allFilledPairwiseDistinct (f.get_square i j).cellsList)) := by
    rw [field_is_valid_iff]
    constructor
    · rintro ⟨h1, h2, h3⟩
      exact ⟨fun i hi =>
          (cells_check_iff _ (WF_row_length hwf hi)).mp (h1 i hi),
        fun i hi => (cells_check_iff _ (column_length f i)).mp (h2 i hi),
        fun i hi j hj =>
          (cells_check_iff _ (WF_square_length hwf hi hj)).mp (h3 i hi j hj)⟩
    · rintro ⟨h1, h2, h3⟩
      exact ⟨fun i hi =>
          (cells_check_iff _ (WF_row_length hwf hi)).mpr (h1 i hi),
        fun i hi => (cells_check_iff _ (column_length f i)).mpr (h2 i hi),
        fun i hi j hj =>
          (cells_check_iff _ (WF_square_length hwf hi hj)).mpr (h3 i hi j hj)⟩
  refine ⟨hmain, ?_⟩
  rintro ⟨i, hi, j, k, hjk, hk9, hne, heq⟩
  cases hval : f.is_valid with
  | false => rfl
  | true =>
    exfalso
    obtain ⟨-, hpair⟩ := (hmain.mp hval).1 i hi
    have hlen : (f.get_row i).cells.length = 9 := WF_row_length hwf hi
    rw [List.pairwise_iff_getElem] at hpair
    have hj9 : j < 9 := lt_trans hjk hk9
    have hcj : (f.get_row i).cells.getD j defaultCell = f.get_cell j i := rfl
    have hck : (f.get_row i).cells.getD k defaultCell = f.get_cell k i := rfl
    rw [List.getD_eq_getElem _ _ (by omega)] at hcj hck
    refine hpair j k (by simp [hlen]; omega) (by simp [hlen]; omega) hjk ?_
    rw [List.getElem_map, List.getElem_map, hcj, hck]
    exact heq

/-- C8 witness: the concrete complete grid is well-formed, reported valid,
and so all of its rows are filled with pairwise distinct values. -/
theorem C8_witness :
    fComplete.is_valid = true ∧
      ∀ i < 9, allFilledPairwiseDistinct (fComplete.get_row i).cells :=
  ⟨by decide,
    ((C8_is_valid_spec fComplete (by decide)).1.mp (by decide)).1⟩

/-! Plumbing for in-place cell assignment. -/

/-- Defensive indexing ignores an update at a different index. -/
theorem getD_set_ne {α : Type} (l : List α) (d a : α) {i j : ℕ} (h : i ≠ j) :
    (l.set i a).getD j d = l.getD j d := by
  rcases lt_or_ge j l.length with hj | hj
  · rw [List.getD_eq_getElem _ _ (by simpa using hj),
      List.getD_eq_getElem _ _ hj]
    exact List.getElem_set_ne h _
  · rw [List.getD_eq_default _ _ (by simpa using hj),
      List.getD_eq_default _ _ hj]

/-- Defensive indexing sees an in-range update at the same index. -/
theorem getD_set_self {α : Type} (l : List α) (d a : α) {i : ℕ}
    (h : i < l.length) : (l.set i a).getD i d = a := by
  rw [List.getD_eq_getElem _ _ (by simpa using h)]
  exact List.getElem_set_self _

/-- Setting one entry moves the count of a predicate by the difference at
that entry. -/
theorem countP_set_lemma {α : Type} (p : α → Bool) :
    ∀ (l : List α) (i : ℕ) (a : α), i < l.length →
      (l.set i a).countP p + (if p (l.getD i a) then 1 else 0) =
        l.countP p + (if p a then 1 else 0)
  | [], i, a, h => by simp at h
  | x :: xs, 0, a, _ => by
    simp only [List.set, List.getD_cons_zero, List.countP_cons]
    omega
  | x :: xs, i + 1, a, h => by
    simp only [List.set, List.getD_cons_succ, List.countP_cons]
    have := countP_set_lemma p xs i a (by simpa using h)
    omega

/-- Setting one entry moves a sum of naturals by the difference at that
entry. -/
theorem sum_set_nat :
    ∀ (l : List ℕ) (i : ℕ) (a : ℕ), i < l.length →
      (l.set i a).sum + l.getD i 0 = l.sum + a
  | [], i, a, h => by simp at h
  | x :: xs, 0, a, _ => by
    simp only [List.set, List.getD_cons_zero, List.sum_cons]
    omega
  | x :: xs, i + 1, a, h => by
    simp only [List.set, List.getD_cons_succ, List.sum_cons]
    have := sum_set_nat xs i a (by simpa using h)
    omega

/-- The assigned cell after an in-range assignment: same coordinates, new
value. -/
theorem get_cell_set_self {f : Field} (hlen : f.data.length = 9)
    (hrows : ∀ r ∈ f.data, r.length = 9) {c r : ℕ} (hc : c < 9) (hr : r < 9)
    (v : Option ℕ) :
    (f.setCellValue c r v).get_cell c r = { f.get_cell c r with value := v } := by
  have hrmem : f.data.getD r [] ∈ f.data := by
    rw [List.getD_eq_getElem _ _ (by omega)]
    exact List.getElem_mem _
  have hrowlen : (f.data.getD r []).length = 9 := hrows _ hrmem
  unfold Field.setCellValue Field.get_cell
  simp only
  rw [getD_set_self _ _ _ (by omega), getD_set_self _ _ _ (by omega)]

/-- Any other cell is untouched by an assignment. -/
theorem get_cell_set_other {f : Field} {c r c1 r1 : ℕ}
    (h : c1 ≠ c ∨ r1 ≠ r) (v : Option ℕ) :
    (f.setCellValue c r v).get_cell c1 r1 = f.get_cell c1 r1 := by
  unfold Field.setCellValue Field.get_cell
  simp only
  rcases eq_or_ne r1 r with hrr | hrr
  · subst hrr
    have hcc : c1 ≠ c := by tauto
    rcases lt_or_ge r1 f.data.length with hlt | hge
    · rw [getD_set_self _ _ _ hlt, getD_set_ne _ _ _ (Ne.symm hcc)]
    · rw [List.set_eq_of_length_le hge]
  · rw [getD_set_ne _ _ _ (Ne.symm hrr)]

/-- An in-range assignment preserves well-formedness. -/
theorem WF_setCellValue {f : Field} (hwf : f.WF) {c r : ℕ} (hc : c < 9)
    (hr : r < 9) (v : Option ℕ) : (f.setCellValue c r v).WF := by
  obtain ⟨hlen, hrows, hcoords⟩ := hwf
  refine ⟨by simpa [Field.setCellValue] using hlen, ?_, ?_⟩
  · intro row hrow
    simp only [Field.setCellValue] at hrow
    rcases List.mem_or_eq_of_mem_set hrow with hmem | heq
    · exact hrows row hmem
    · subst heq
      rw [List.length_set]
      apply hrows
      rw [List.getD_eq_getElem _ _ (by omega)]
      exact List.getElem_mem _
  · intro r1 hr1 c1 hc1
    rcases Classical.em (c1 = c ∧ r1 = r) with ⟨rfl, rfl⟩ | hne
    · rw [get_cell_set_self hlen hrows hc hr v]
      exact hcoords r1 hr1 c1 hc1
    · rw [get_cell_set_other (by tauto) v]
      exact hcoords r1 hr1 c1 hc1

/-- An assignment into an in-range empty cell lowers the number of empty
cells by exactly one. -/
theorem emptyCount_setCellValue {f : Field} (hlen : f.data.length = 9)
    (hrows : ∀ r ∈ f.data, r.length = 9) {c r : ℕ} (hc : c < 9) (hr : r < 9)
    (hnone : (f.get_cell c r).value = none) (x : ℕ) :
    (f.setCellValue c r (some x)).emptyCount + 1 = f.emptyCount := by
  have hrmem : f.data.getD r [] ∈ f.data := by
    rw [List.getD_eq_getElem _ _ (by omega)]
    exact List.getElem_mem _
  have hrowlen : (f.data.getD r []).length = 9 := hrows _ hrmem
  unfold Field.emptyCount Field.cellsList Field.setCellValue
  simp only
  rw [List.countP_flatten, List.countP_flatten, List.map_set]
  set p : Cell → Bool := fun cc => cc.value.isNone with hp
  set row := f.data.getD r [] with hrow
  set newCell : Cell := { f.get_cell c r with value := some x } with hnew
  have hcount := countP_set_lemma p row c newCell (by omega)
  have hrowget : row.getD c newCell = f.get_cell c r := by
    unfold Field.get_cell
    rw [← hrow]
    rw [List.getD_eq_getElem row newCell (by omega)]
    rw [List.getD_eq_getElem row defaultCell (by omega)]
  rw [hrowget] at hcount
  have hpold : p (f.get_cell c r) = true := by
    simp [hp, Option.isNone_iff_eq_none, hnone]
  have hpnew : p newCell = false := by simp [hp, hnew]
  simp only [hpold, hpnew, if_true, Bool.false_eq_true, if_false] at hcount
  have hmaplen : (f.data.map (List.countP p)).length = 9 := by
    simpa using hlen
  have hsum := sum_set_nat (f.data.map (List.countP p)) r
    (row.set c newCell |>.countP p) (by omega)
  have hmapget : (f.data.map (List.countP p)).getD r 0 = row.countP p := by
    rw [List.getD_eq_getElem _ _ (by omega), List.getElem_map]
    congr 1
    rw [hrow, List.getD_eq_getElem _ _ (by omega)]
  rw [hmapget] at hsum
  omega

/-! Behaviour of the propagation loop. -/

/-- On an empty cell the entry point can only fail with the inconsistent
signal. -/
theorem gpv_error_none {field : Field} {cell : Cell} {e : SolveError}
    (hcv : cell.value = none)
    (h : get_possible_values field cell = .error e) : e = .inconsistent := by
  unfold get_possible_values at h
  rw [hcv] at h
  dsimp only at h
  split at h
  · simp at h
  · injection h with h1
    exact h1.symm

/-- One scan step either keeps the state unchanged or raises the
progress flag. -/
theorem cycleStep_ok_cases {st st1 : Field × Bool} {p : ℕ × ℕ}
    (h : cycleStep st p = .ok st1) : st1 = st ∨ st1.2 = true := by
  unfold cycleStep at h
  dsimp only at h
  split at h
  · injection h with h1
    exact Or.inl h1.symm
  · split at h
    · simp at h
    · split at h
      · injection h with h1
        subst h1
        exact Or.inr rfl
      · injection h with h1
        exact Or.inl h1.symm

/-- A failing scan step fails with the inconsistent signal. -/
theorem cycleStep_error {st : Field × Bool} {p : ℕ × ℕ} {e : SolveError}
    (h : cycleStep st p = .error e) : e = .inconsistent := by
  unfold cycleStep at h
  dsimp only at h
  split at h
  · simp at h
  · rename_i hcv
    split at h
    · rename_i e1 herr
      injection h with h1
      subst h1
      exact gpv_error_none hcv herr
    · split at h <;> simp at h

/-- A cycle tail that reports no progress left the state untouched. -/
theorem solveCycleAux_false_eq :
    ∀ (l : List (ℕ × ℕ)) (st : Field × Bool) (f1 : Field),
      solveCycleAux st l = .ok (f1, false) → st = (f1, false)
  | [], _, _, h => by
    unfold solveCycleAux at h
    injection h with h1
  | p :: rest, st, f1, h => by
    unfold solveCycleAux at h
    split at h
    · simp at h
    · rename_i st1 hstep
      have hst1 := solveCycleAux_false_eq rest st1 f1 h
      subst hst1
      rcases cycleStep_ok_cases hstep with h1 | h1
      · exact h1.symm
      · simp at h1

/-- A failing cycle fails with the inconsistent signal. -/
theorem solveCycleAux_error :
    ∀ (l : List (ℕ × ℕ)) (st : Field × Bool) (e : SolveError),
      solveCycleAux st l = .error e → e = .inconsistent
  | [], _, _, h => by
    unfold solveCycleAux at h
    simp at h
  | p :: rest, st, e, h => by
    unfold solveCycleAux at h
    split at h
    · rename_i e1 hstep
      injection h with h1
      subst h1
      exact cycleStep_error hstep
    · exact solveCycleAux_error rest _ e h

/-- A full cycle that reports no progress left the field untouched. -/
theorem solveCycle_false_eq {f f1 : Field}
    (h : solveCycle f = .ok (f1, false)) : f1 = f := by
  have h1 := solveCycleAux_false_eq cellPositions (f, false) f1 h
  injection h1 with h2 h3
  exact h2.symm

/-- A failing full cycle fails with the inconsistent signal. -/
theorem solveCycle_error {f : Field} {e : SolveError}
    (h : solveCycle f = .error e) : e = .inconsistent :=
  solveCycleAux_error cellPositions (f, false) e h

/-- Every scanned position is inside the 9 by 9 grid. -/
theorem cellPositions_bounds : ∀ p ∈ cellPositions, p.1 < 9 ∧ p.2 < 9 := by
  decide

/-- One scan step preserves well-formedness, never adds empty cells, and
raises the flag only when it fills one. -/
theorem cycleStep_wf_progress {st st1 : Field × Bool} {p : ℕ × ℕ}
    (hwf : st.1.WF) (hp : p.1 < 9 ∧ p.2 < 9)
    (h : cycleStep st p = .ok st1) :
    st1.1.WF ∧ st1.1.emptyCount ≤ st.1.emptyCount ∧
      (st1.2 = true → st.2 = true ∨ st1.1.emptyCount < st.1.emptyCount) := by
  unfold cycleStep at h
  dsimp only at h
  split at h
  · injection h with h1
    subst h1
    exact ⟨hwf, le_refl _, fun hb => Or.inl hb⟩
  · rename_i hcv
    split at h
    · simp at h
    · split at h
      · rename_i possible hok hcard
        injection h with h1
        subst h1
        refine ⟨WF_setCellValue hwf hp.2 hp.1 _, ?_, fun _ => Or.inr ?_⟩ <;>
        · have := emptyCount_setCellValue hwf.1 hwf.2.1 hp.2 hp.1 hcv
            ((iterSet possible).headD 0)
          simp only
          omega
      · injection h with h1
        subst h1
        exact ⟨hwf, le_refl _, fun hb => Or.inl hb⟩

/-- A cycle tail preserves well-formedness, never adds empty cells, and ends
with the flag raised only if it was raised before or a cell was filled. -/
theorem solveCycleAux_wf_progress :
    ∀ (l : List (ℕ × ℕ)) (st st1 : Field × Bool),
      (∀ p ∈ l, p.1 < 9 ∧ p.2 < 9) → st.1.WF →
      solveCycleAux st l = .ok st1 →
      st1.1.WF ∧ st1.1.emptyCount ≤ st.1.emptyCount ∧
        (st1.2 = true → st.2 = true ∨ st1.1.emptyCount < st.1.emptyCount)
  | [], st, st1, _, hwf, h => by
    unfold solveCycleAux at h
    injection h with h1
    subst h1
    exact ⟨hwf, le_refl _, fun hb => Or.inl hb⟩
  | p :: rest, st, st1, hb, hwf, h => by
    unfold solveCycleAux at h
    split at h
    · simp at h
    · rename_i stm hstep
      have h1 := cycleStep_wf_progress hwf (hb p (by simp)) hstep
      have h2 := solveCycleAux_wf_progress rest stm st1
        (fun q hq => hb q (by simp [hq])) h1.1 h
      refine ⟨h2.1, le_trans h2.2.1 h1.2.1, fun hflag => ?_⟩
      rcases h2.2.2 hflag with hm | hm
      · rcases h1.2.2 hm with hs | hs
        · exact Or.inl hs
        · exact Or.inr (lt_of_le_of_lt h2.2.1 hs)
      · exact Or.inr (lt_of_lt_of_le hm h1.2.1)

/-- A cycle that made progress filled at least one cell. -/
theorem solveCycle_true_progress {f f1 : Field} (hwf : f.WF)
    (h : solveCycle f = .ok (f1, true)) :
    f1.WF ∧ f1.emptyCount < f.emptyCount := by
  have h1 := solveCycleAux_wf_progress cellPositions (f, false) (f1, true)
    cellPositions_bounds hwf h
  refine ⟨h1.1, ?_⟩
  rcases h1.2.2 rfl with hs | hs
  · simp at hs
  · exact hs

/-- The loop terminates: with fuel above the number of empty cells it always
produces an outcome. -/
theorem solveLoop_total :
    ∀ (n : ℕ) (f : Field), f.WF → f.emptyCount < n → solveLoop n f ≠ none
  | 0, f, _, hn => by omega
  | n + 1, f, hwf, hn => by
    unfold solveLoop
    cases hcy : solveCycle f with
    | error e => simp
    | ok pr =>
      obtain ⟨g, b⟩ := pr
      cases b
      · simp
      · have hpr := solveCycle_true_progress hwf hcy
        exact solveLoop_total n g hpr.1 (by omega)

/-- Any error escaping the loop is the inconsistent signal. -/
theorem solveLoop_error :
    ∀ (n : ℕ) (f : Field) (e : SolveError),
      solveLoop n f = some (.error e) → e = .inconsistent
  | 0, f, e, h => by simp [solveLoop] at h
  | n + 1, f, e, h => by
    unfold solveLoop at h
    cases hcy : solveCycle f with
    | error e1 =>
      rw [hcy] at h
      simp only [Option.some.injEq] at h
      injection h with h1
      subst h1
      exact solveCycle_error hcy
    | ok pr =>
      rw [hcy] at h
      obtain ⟨g, b⟩ := pr
      cases b
      · simp at h
      · exact solveLoop_error n g e h

/-- A normal outcome of the loop is a fixed point of the cycle. -/
theorem solveLoop_ok_fixpoint :
    ∀ (n : ℕ) (f f1 : Field), solveLoop n f = some (.ok f1) →
      solveCycle f1 = .ok (f1, false)
  | 0, f, f1, h => by simp [solveLoop] at h
  | n + 1, f, f1, h => by
    unfold solveLoop at h
    cases hcy : solveCycle f with
    | error e => rw [hcy] at h; simp at h
    | ok pr =>
      rw [hcy] at h
      obtain ⟨g, b⟩ := pr
      cases b
      · dsimp only at h
        injection h with h1
        injection h1 with h2
        subst h2
        have hgf : g = f := solveCycle_false_eq hcy
        subst hgf
        exact hcy
      · exact solveLoop_ok_fixpoint n g f1 h

/-- C3: the propagation loop stops after the first cycle that makes no
assignment, so a grid it has already stalled on is a fixed point: running
the loop again changes no cell and returns the same grid. -/
theorem C3_solve_idempotent (f f1 : Field) (h : solve f = some (.ok f1)) :
    solve f1 = some (.ok f1) ∧ solveCycle f1 = .ok (f1, false) := by
  have hc : solveCycle f1 = .ok (f1, false) :=
    solveLoop_ok_fixpoint (f.emptyCount + 1) f f1 h
  constructor
  · unfold solve
    unfold solveLoop
    rw [hc]
  · exact hc

/-- C3 witness: the loop fills the one missing cell of a concrete grid and
is idempotent on the resulting stalled (here: solved) grid. -/
theorem C3_witness :
    solve fComplete = some (.ok fComplete) ∧
      solveCycle fComplete = .ok (fComplete, false) :=
  C3_solve_idempotent fOneEmpty fComplete (by decide)

/-- C9: on a well-formed grid the propagation loop always reaches an
outcome, and the only error it ever surfaces to its caller is the
Inconsistent-state signal (never the InvalidOperation programming fault):
an empty candidate set during propagation reaches the caller of `solve`
as that error value. -/
theorem C9_solve_error_surfaced (f : Field) (hwf : f.WF) :
    (∀ e, solve f = some (.error e) → e = .inconsistent) ∧
      solve f ≠ none := by
  constructor
  · intro e h
    exact solveLoop_error (f.emptyCount + 1) f e h
  · exact solveLoop_total (f.emptyCount + 1) f hwf (by omega)

/-- C9 witness: a concrete contradictory grid makes the loop surface the
Inconsistent-state error to its caller. -/
theorem C9_witness :
    solve fBad = some (.error .inconsistent) ∧ solve fBad ≠ none :=
  ⟨by decide, (C9_solve_error_surfaced fBad (by decide)).2⟩

/-! Behaviour of one backtracking iteration. -/

/-- Membership in the candidate iteration order. -/
theorem mem_iterSet {s : Finset ℕ} {v : ℕ} :
    v ∈ iterSet s ↔ v ∈ s ∧ v < 10 := by
  unfold iterSet
  rw [List.mem_filter, List.mem_range]
  simp [and_comm]

/-- Allowed values are below ten. -/
theorem allowed_lt_ten : ∀ v ∈ allowedNine, v < 10 := by decide

/-- Iterating a set of allowed values visits exactly its members. -/
theorem mem_iterSet_of_allowed {s : Finset ℕ} (hs : s ⊆ allowedNine)
    {v : ℕ} : v ∈ iterSet s ↔ v ∈ s := by
  rw [mem_iterSet]
  exact ⟨fun h => h.1, fun h => ⟨h, allowed_lt_ten v (hs h)⟩⟩

/-- A grid has empty cells exactly when its empty count is positive. -/
theorem has_empty_iff (f : Field) :
    f.has_empty_cells = true ↔ 0 < f.emptyCount := by
  unfold Field.has_empty_cells Field.emptyCount
  rw [List.any_eq_true, List.countP_pos]

/-- A successful entry-point call on an empty cell returns its non-empty
tier-2 candidate set. -/
theorem gpv_ok_eq {field : Field} {cell : Cell} {possible : Finset ℕ}
    (hcv : cell.value = none)
    (h : get_possible_values field cell = .ok possible) :
    possible = get_possible_value_tier_2 field cell ∧ possible.Nonempty := by
  unfold get_possible_values at h
  rw [hcv] at h
  dsimp only at h
  split at h
  · rename_i hcard
    injection h with h1
    subst h1
    exact ⟨rfl, Finset.card_pos.mp hcard⟩
  · simp at h

/-- A cell found in the cell list of a well-formed grid records its own
coordinates, and those are in range. -/
theorem mem_cellsList_get {f : Field} (hwf : f.WF) {cell : Cell}
    (hc : cell ∈ f.cellsList) :
    cell.column < 9 ∧ cell.row < 9 ∧
      f.get_cell cell.column cell.row = cell := by
  unfold Field.cellsList at hc
  rw [List.mem_flatten] at hc
  obtain ⟨row, hrow, hcell⟩ := hc
  rw [List.mem_iff_getElem] at hrow
  obtain ⟨r, hr, rfl⟩ := hrow
  rw [List.mem_iff_getElem] at hcell
  obtain ⟨j, hj, rfl⟩ := hcell
  have hr9 : r < 9 := by rw [hwf.1] at hr; exact hr
  have hj9 : j < 9 := by
    have := hwf.2.1 _ (List.getElem_mem hr)
    omega
  have hget : f.get_cell j r = f.data[r][j] := by
    unfold Field.get_cell
    rw [List.getD_eq_getElem _ _ hr, List.getD_eq_getElem _ _ hj]
  have hco := hwf.2.2 r hr9 j hj9
  rw [hget] at hco
  rw [hco.1, hco.2, hget]
  exact ⟨hco.1 ▸ hj9, hco.2 ▸ hr9, rfl⟩

/-- What the first-empty-cell scan guarantees on a well-formed grid. -/
theorem firstEmptyCell_spec {f : Field} (hwf : f.WF) {cell : Cell}
    (h : f.firstEmptyCell = some cell) :
    cell.value = none ∧ cell.column < 9 ∧ cell.row < 9 ∧
      f.get_cell cell.column cell.row = cell ∧ 0 < f.emptyCount := by
  have hmem := List.mem_of_find?_eq_some h
  have hval : cell.value = none := by
    have := List.find?_some h
    simpa [Option.isNone_iff_eq_none] using this
  have hget := mem_cellsList_get hwf hmem
  refine ⟨hval, hget.1, hget.2.1, hget.2.2, ?_⟩
  unfold Field.emptyCount
  rw [List.countP_pos]
  exact ⟨cell, hmem, by simp [hval]⟩

/-- Whether an assigned copy still has empty cells does not depend on which
value was assigned: exactly the one found empty cell got filled. -/
theorem assigned_emptyCount {f : Field} (hwf : f.WF) {cell : Cell}
    (h : f.firstEmptyCell = some cell) (v : ℕ) :
    (f.setCellValue cell.column cell.row (some v)).emptyCount + 1 =
      f.emptyCount := by
  obtain ⟨hval, hc9, hr9, hget, -⟩ := firstEmptyCell_spec hwf h
  exact emptyCount_setCellValue hwf.1 hwf.2.1 hc9 hr9 (by rw [hget, hval]) v

/-- The candidate loop when every assigned copy still has empty cells: all
copies are pushed in candidate order and no solution is reported. -/
theorem processValues_push (f : Field) (cell : Cell) :
    ∀ (l : List ℕ),
      (∀ v ∈ l, (f.setCellValue cell.column cell.row
        (some v)).has_empty_cells = true) →
      processValues f cell l =
        (l.map (fun v => f.setCellValue cell.column cell.row (some v)), none)
  | [], _ => rfl
  | v :: rest, hall => by
    unfold processValues
    dsimp only
    rw [hall v (by simp)]
    simp only [if_true]
    rw [processValues_push f cell rest (fun w hw => hall w (by simp [hw]))]
    rfl

/-- The candidate loop when no assigned copy has empty cells: nothing is
pushed, and a solution is reported exactly when some candidate yields a
fully valid copy. -/
theorem processValues_full (f : Field) (cell : Cell) :
    ∀ (l : List ℕ),
      (∀ v ∈ l, (f.setCellValue cell.column cell.row
        (some v)).has_empty_cells = false) →
      (processValues f cell l).1 = [] ∧
      ((processValues f cell l).2 ≠ none ↔ ∃ v ∈ l,
        (f.setCellValue cell.column cell.row (some v)).is_valid = true) ∧
      (∀ g, (processValues f cell l).2 = some g → ∃ v ∈ l,
        g = f.setCellValue cell.column cell.row (some v) ∧
        g.is_valid = true ∧ g.has_empty_cells = false)
  | [], _ => by
    refine ⟨rfl, by simp [processValues], by simp [processValues]⟩
  | v :: rest, hall => by
    have hv := hall v (by simp)
    have ih := processValues_full f cell rest
      (fun w hw => hall w (by simp [hw]))
    unfold processValues
    dsimp only
    rw [hv]
    simp only [Bool.false_eq_true, if_false]
    cases hval : (f.setCellValue cell.column cell.row (some v)).is_valid with
    | true =>
      rw [if_pos rfl]
      refine ⟨rfl, ?_, ?_⟩
      · simp only [ne_eq, Option.some_ne_none, not_false_eq_true, true_iff]
        exact ⟨v, by simp, hval⟩
      · intro g hg
        injection hg with h1
        exact ⟨v, by simp, h1.symm, h1 ▸ hval, h1 ▸ hv⟩
    | false =>
      rw [if_neg (by simp)]
      refine ⟨ih.1, ?_, ?_⟩
      · rw [ih.2.1]
        constructor
        · rintro ⟨w, hw, hwv⟩
          exact ⟨w, by simp [hw], hwv⟩
        · rintro ⟨w, hw, hwv⟩
          rcases List.mem_cons.mp hw with rfl | hw2
          · rw [hval] at hwv
            simp at hwv
          · exact ⟨w, hw2, hwv⟩
      · intro g hg
        obtain ⟨w, hw, hrest⟩ := ih.2.2 g hg
        exact ⟨w, by simp [hw], hrest⟩

/-- C4: for every popped well-formed grid, the backtracking step branches
only on the first empty cell in row-major order: on a deduction failure the
branch dies with no successors; otherwise, when other empty cells remain,
every candidate assignment is deep-copied and pushed (in candidate order)
and no solution is reported; when the branched cell was the last empty cell,
nothing is pushed and a solution is reported exactly when some candidate
assignment is fully valid, the reported solution being such a copy. -/
theorem C4_bruteStep_spec (f : Field) (hwf : f.WF) :
    (f.firstEmptyCell = none → bruteStep f = ([], none)) ∧
    (∀ cell e, f.firstEmptyCell = some cell →
      get_possible_values f cell = .error e → bruteStep f = ([], none)) ∧
    (∀ cell possible, f.firstEmptyCell = some cell →
      get_possible_values f cell = .ok possible →
      ((1 < f.emptyCount →
         bruteStep f = ((iterSet possible).map
           (fun v => f.setCellValue cell.column cell.row (some v)), none)) ∧
       (f.emptyCount = 1 →
         ((bruteStep f).1 = [] ∧
          ((bruteStep f).2 ≠ none ↔ ∃ v ∈ possible,
            (f.setCellValue cell.column cell.row (some v)).is_valid = true) ∧
          (∀ g, (bruteStep f).2 = some g → ∃ v ∈ possible,
            g = f.setCellValue cell.column cell.row (some v) ∧
            g.is_valid = true ∧ g.has_empty_cells = false))))) := by
  refine ⟨fun h => ?_, fun cell e h he => ?_, fun cell possible h hok => ?_⟩
  · unfold bruteStep
    rw [h]
  · unfold bruteStep
    rw [h]
    dsimp only
    rw [he]
  · have hcv : cell.value = none := (firstEmptyCell_spec hwf h).1
    have hmem : ∀ v, v ∈ iterSet possible ↔ v ∈ possible := by
      intro v
      refine mem_iterSet_of_allowed ?_
      rw [(gpv_ok_eq hcv hok).1]
      exact Finset.Subset.trans (tier2_subset_tier1 f cell)
        (tier1_subset_allowed f cell)
    have hstep : bruteStep f = processValues f cell (iterSet possible) := by
      unfold bruteStep
      rw [h]
      dsimp only
      rw [hok]
    constructor
    · intro hgt
      rw [hstep, processValues_push f cell (iterSet possible) ?_]
      intro v hv
      rw [has_empty_iff]
      have := assigned_emptyCount hwf h v
      omega
    · intro hone
      have hfull : ∀ v ∈ iterSet possible,
          (f.setCellValue cell.column cell.row
            (some v)).has_empty_cells = false := by
        intro v hv
        have := assigned_emptyCount hwf h v
        rw [← Bool.not_eq_true, has_empty_iff]
        omega
      have hp := processValues_full f cell (iterSet possible) hfull
      rw [hstep]
      refine ⟨hp.1, ?_, ?_⟩
      · rw [hp.2.1]
        constructor
        · rintro ⟨v, hv, hvv⟩
          exact ⟨v, (hmem v).mp hv, hvv⟩
        · rintro ⟨v, hv, hvv⟩
          exact ⟨v, (hmem v).mpr hv, hvv⟩
      · intro g hg
        obtain ⟨v, hv, hrest⟩ := hp.2.2 g hg
        exact ⟨v, (hmem v).mp hv, hrest⟩

/-- C4 witness: on a concrete grid with two empty cells the step pushes
exactly the one candidate copy of the first empty cell and reports no
solution. -/
theorem C4_witness :
    bruteStep fTwoEmpty = ([fTwoEmpty.setCellValue 0 0 (some 1)], none) := by
  have h := ((C4_bruteStep_spec fTwoEmpty (by decide)).2.2
    (fTwoEmpty.get_cell 0 0) {1} (by decide) (by decide)).1 (by decide)
  rw [h]
  decide

/-- C6 witness: a concrete tier-2 membership transported into tier 1 by the
subset claim. -/
theorem C6_witness :
    1 ∈ get_possible_value_tier_1 fTwoEmpty (fTwoEmpty.get_cell 0 0) :=
  C6_tier2_subset_tier1 fTwoEmpty (fTwoEmpty.get_cell 0 0) (by decide)

/-! Termination of the backtracking loop. -/

/-- Candidate iteration yields at most nine values when the set is made of
allowed values. -/
theorem iterSet_length_le {possible : Finset ℕ}
    (hs : possible ⊆ allowedNine) : (iterSet possible).length ≤ 9 := by
  have hnd : (iterSet possible).Nodup :=
    List.Nodup.filter _ (List.nodup_range 10)
  rw [← List.toFinset_card_of_nodup hnd]
  have hsub : (iterSet possible).toFinset ⊆ allowedNine := by
    intro v hv
    rw [List.mem_toFinset, mem_iterSet] at hv
    exact hs hv.1
  have := Finset.card_le_card hsub
  have hcard : allowedNine.card = 9 := by decide
  omega

/-- Every copy in the pushed list comes from assigning one candidate into
the branched cell and still has empty cells. -/
theorem processValues_pushed_mem (f : Field) (cell : Cell) :
    ∀ (l : List ℕ) (g : Field), g ∈ (processValues f cell l).1 →
      ∃ v ∈ l, g = f.setCellValue cell.column cell.row (some v) ∧
        g.has_empty_cells = true
  | [], g, hg => by simp [processValues] at hg
  | v :: rest, g, hg => by
    unfold processValues at hg
    dsimp only at hg
    split at hg
    · rename_i hemp
      rcases List.mem_cons.mp hg with rfl | hg2
      · exact ⟨v, by simp, rfl, hemp⟩
      · obtain ⟨w, hw, hrest⟩ := processValues_pushed_mem f cell rest g hg2
        exact ⟨w, by simp [hw], hrest⟩
    · split at hg
      · simp at hg
      · obtain ⟨w, hw, hrest⟩ := processValues_pushed_mem f cell rest g hg
        exact ⟨w, by simp [hw], hrest⟩

/-- The pushed list is no longer than the candidate list. -/
theorem processValues_pushed_length (f : Field) (cell : Cell) :
    ∀ (l : List ℕ), (processValues f cell l).1.length ≤ l.length
  | [] => by simp [processValues]
  | v :: rest => by
    unfold processValues
    dsimp only
    have ih := processValues_pushed_length f cell rest
    split
    · simpa using ih
    · split
      · simp
      · exact le_trans ih (by simp)

/-- Facts about every successor pushed by one backtracking step on a
well-formed grid: it is well-formed, fills exactly one more cell, and still
has empty cells. -/
theorem bruteStep_pushed {f g : Field} (hwf : f.WF)
    (hg : g ∈ (bruteStep f).1) :
    g.WF ∧ g.emptyCount + 1 = f.emptyCount ∧ g.has_empty_cells = true := by
  unfold bruteStep at hg
  cases hfe : f.firstEmptyCell with
  | none => rw [hfe] at hg; simp at hg
  | some cell =>
    rw [hfe] at hg
    dsimp only at hg
    cases hok : get_possible_values f cell with
    | error e => rw [hok] at hg; simp at hg
    | ok possible =>
      rw [hok] at hg
      dsimp only at hg
      obtain ⟨v, hv, rfl, hemp⟩ :=
        processValues_pushed_mem f cell (iterSet possible) _ hg
      obtain ⟨-, hc9, hr9, -, -⟩ := firstEmptyCell_spec hwf hfe
      exact ⟨WF_setCellValue hwf hc9 hr9 _,
        assigned_emptyCount hwf hfe v, hemp⟩

/-- One backtracking step pushes at most nine successors. -/
theorem bruteStep_pushed_length {f : Field} (hwf : f.WF) :
    (bruteStep f).1.length ≤ 9 := by
  unfold bruteStep
  cases hfe : f.firstEmptyCell with
  | none => simp
  | some cell =>
    dsimp only
    cases hok : get_possible_values f cell with
    | error e => simp
    | ok possible =>
      dsimp only
      refine le_trans (processValues_pushed_length f cell (iterSet possible))
        (iterSet_length_le ?_)
      have hcv : cell.value = none := (firstEmptyCell_spec hwf hfe).1
      rw [(gpv_ok_eq hcv hok).1]
      exact Finset.Subset.trans (tier2_subset_tier1 f cell)
        (tier1_subset_allowed f cell)

/-- The stack measure is additive. -/
theorem stackMeasure_append (a b : List Field) :
    stackMeasure (a ++ b) = stackMeasure a + stackMeasure b := by
  simp [stackMeasure]

/-- Reversal keeps the stack measure. -/
theorem stackMeasure_reverse (a : List Field) :
    stackMeasure a.reverse = stackMeasure a := by
  simp only [stackMeasure, List.map_reverse]
  exact List.sum_reverse _

/-- Measure bound for a list of grids missing the same number of cells. -/
theorem stackMeasure_le {e : ℕ} :
    ∀ (l : List Field), (∀ g ∈ l, g.emptyCount + 1 = e) →
      stackMeasure l ≤ l.length * 10 ^ (e - 1)
  | [], _ => by simp [stackMeasure]
  | g :: rest, h => by
    have hg := h g (by simp)
    have ih := stackMeasure_le rest (fun x hx => h x (by simp [hx]))
    have hge : g.emptyCount = e - 1 := by omega
    simp only [stackMeasure, List.map_cons, List.sum_cons] at *
    rw [hge]
    calc 10 ^ (e - 1) + (rest.map (fun x => 10 ^ x.emptyCount)).sum
        ≤ 10 ^ (e - 1) + rest.length * 10 ^ (e - 1) := by omega
      _ = (rest.length + 1) * 10 ^ (e - 1) := by ring
      _ = (g :: rest).length * 10 ^ (e - 1) := by simp [Nat.add_comm]

/-- The measure of the pushed successors is strictly below the measure of
the popped grid. -/
theorem bruteStep_measure_lt {f : Field} (hwf : f.WF) :
    stackMeasure (bruteStep f).1 < 10 ^ f.emptyCount := by
  cases hnil : (bruteStep f).1 with
  | nil =>
    simp only [stackMeasure, List.map_nil, List.sum_nil]
    exact pow_pos (by omega) _
  | cons g rest =>
    have hmem : ∀ x ∈ (bruteStep f).1, x.emptyCount + 1 = f.emptyCount :=
      fun x hx => (bruteStep_pushed hwf hx).2.1
    have he : 0 < f.emptyCount := by
      have := hmem g (by rw [hnil]; simp)
      omega
    have hlen := bruteStep_pushed_length hwf
    have hm := stackMeasure_le (bruteStep f).1 hmem
    have hpow : 10 ^ (f.emptyCount - 1) * 10 = 10 ^ f.emptyCount := by
      rw [← pow_succ]
      congr 1
      omega
    have hp : 0 < 10 ^ (f.emptyCount - 1) := pow_pos (by omega) _
    have hfin : stackMeasure (bruteStep f).1 ≤ 9 * 10 ^ (f.emptyCount - 1) := by
      calc stackMeasure (bruteStep f).1
          ≤ (bruteStep f).1.length * 10 ^ (f.emptyCount - 1) := hm
        _ ≤ 9 * 10 ^ (f.emptyCount - 1) :=
            Nat.mul_le_mul_right _ hlen
    rw [hnil] at hfin
    omega

/-- The backtracking loop reaches a definite outcome with any fuel above the
stack measure, and that outcome does not depend on the extra fuel. -/
theorem bruteLoop_terminates :
    ∀ (k : ℕ) (stack : List Field), (∀ g ∈ stack, g.WF) →
      stackMeasure stack < k →
      ∃ r, ∀ n, stackMeasure stack < n → bruteLoop n stack = some r
  | 0, _, _, hk => absurd hk (by omega)
  | k + 1, [], _, _ => by
    refine ⟨none, fun n hn => ?_⟩
    cases n with
    | zero => simp [stackMeasure] at hn
    | succ m => rfl
  | k + 1, f :: rest, hwfs, hk => by
    have hwf : f.WF := hwfs f (by simp)
    cases hbs : bruteStep f with
    | mk pushed sol =>
      cases sol with
      | some s =>
        refine ⟨some s, fun n hn => ?_⟩
        have hn1 : 0 < n := by
          have : 0 < 10 ^ f.emptyCount := Nat.pos_pow_of_pos _ (by omega)
          have : 0 < stackMeasure (f :: rest) := by
            simp only [stackMeasure, List.map_cons, List.sum_cons]
            omega
          omega
        obtain ⟨m, rfl⟩ : ∃ m, n = m + 1 :=
          ⟨n - 1, by omega⟩
        unfold bruteLoop
        rw [hbs]
      | none =>
        have hmeas : stackMeasure (pushed.reverse ++ rest) <
            stackMeasure (f :: rest) := by
          rw [stackMeasure_append, stackMeasure_reverse]
          have h1 : stackMeasure pushed < 10 ^ f.emptyCount := by
            have := bruteStep_measure_lt hwf
            rw [hbs] at this
            exact this
          simp only [stackMeasure, List.map_cons, List.sum_cons] at *
          omega
        have hwfs2 : ∀ g ∈ pushed.reverse ++ rest, g.WF := by
          intro g hg
          rcases List.mem_append.mp hg with hg1 | hg2
          · rw [List.mem_reverse] at hg1
            have : g ∈ (bruteStep f).1 := by rw [hbs]; exact hg1
            exact (bruteStep_pushed hwf this).1
          · exact hwfs g (by simp [hg2])
        obtain ⟨r, hr⟩ := bruteLoop_terminates k (pushed.reverse ++ rest)
          hwfs2 (by omega)
        refine ⟨r, fun n hn => ?_⟩
        obtain ⟨m, rfl⟩ : ∃ m, n = m + 1 := ⟨n - 1, by omega⟩
        unfold bruteLoop
        rw [hbs]
        exact hr m (by omega)

/-- C10: the backtracking search terminates on every well-formed grid: each
pushed successor fills exactly one more cell than the popped grid and is
pushed only while empty cells remain, so the loop reaches a definite
outcome, already with fuel bounded by the stack measure, and more fuel does
not change it. -/
theorem C10_brute_force_terminates (f : Field) (hwf : f.WF) :
    (∃ r, brute_force f = some r ∧
      ∀ n, stackMeasure [f] < n → bruteLoop n [f] = some r) ∧
    (∀ g ∈ (bruteStep f).1,
      g.emptyCount + 1 = f.emptyCount ∧ g.has_empty_cells = true) := by
  constructor
  · obtain ⟨r, hr⟩ := bruteLoop_terminates (stackMeasure [f] + 1) [f]
      (by intro g hg; rw [List.mem_singleton] at hg; subst hg; exact hwf)
      (by omega)
    exact ⟨r, hr _ (by omega), hr⟩
  · intro g hg
    exact (bruteStep_pushed hwf hg).2

/-- C10 witness: on a concrete grid with one empty cell the search reaches
its outcome within the measure bound. -/
theorem C10_witness :
    ∃ r, brute_force fOneEmpty = some r ∧
      ∀ n, stackMeasure [fOneEmpty] < n → bruteLoop n [fOneEmpty] = some r :=
  (C10_brute_force_terminates fOneEmpty (by decide)).1

/-! Store-indexed model of the deep-copy discipline of `brute_force`.  The
source mutates cell objects inside grid objects; to make the claim that the
caller's grid is never mutated observable, grids live in a store (one slot
per grid object), `deepcopy` allocates a fresh slot, and the in-place
assignment writes only to that fresh slot.  The stack holds slot ids. -/

/-- The inner candidate loop over the store: each candidate deep-copies the
popped grid into a fresh slot and then assigns into that copy.  Returns the
extended store, the pushed slot ids in push order, and the slot of a full
valid copy when one was reached. -/
def bruteHeapValues (heap : List Field) (g : Field) (cell : Cell) :
    List ℕ → List Field × List ℕ × Option ℕ
  | [] => (heap, [], none)
  | v :: rest =>
    let idx := heap.length
    let heap1 := (heap ++ [g]).set idx
      (g.setCellValue cell.column cell.row (some v))
    let fc := heap1.getD idx ⟨[]⟩
    if fc.has_empty_cells then
      let pr := bruteHeapValues heap1 g cell rest
      (pr.1, idx :: pr.2.1, pr.2.2)
    else if fc.is_valid then (heap1, [], some idx)
    else bruteHeapValues heap1 g cell rest

/-- The store-indexed backtracking loop: popped grids are read from the
store and only freshly allocated copies are ever written. -/
def bruteHeapLoop : ℕ → List Field → List ℕ → List Field × Option ℕ
  | 0, heap, _ => (heap, none)
  | _ + 1, heap, [] => (heap, none)
  | fuel + 1, heap, i :: stack =>
    match (heap.getD i ⟨[]⟩).firstEmptyCell with
    | none => bruteHeapLoop fuel heap stack
    | some cell =>
      match get_possible_values (heap.getD i ⟨[]⟩) cell with
      | .error _ => bruteHeapLoop fuel heap stack
      | .ok possible =>
        match bruteHeapValues heap (heap.getD i ⟨[]⟩) cell
            (iterSet possible) with
        | (heap1, _, some sol) => (heap1, some sol)
        | (heap1, ids, none) => bruteHeapLoop fuel heap1 (ids.reverse ++ stack)

/-- Store-indexed `brute_force`: the caller's grid lives in slot 0, and the
search starts from a stack holding one deep copy of it in fresh slot 1. -/
def brute_force_heap (field : Field) (fuel : ℕ) : List Field × Option ℕ :=
  bruteHeapLoop fuel ([field] ++ [field]) [1]

/-- Defensive indexing into the left part of an appended list. -/
theorem getD_append_left {α : Type} (a b : List α) (d : α) {i : ℕ}
    (h : i < a.length) : (a ++ b).getD i d = a.getD i d := by
  rw [List.getD_eq_getElem _ _ (by simp; omega), List.getD_eq_getElem _ _ h]
  exact List.getElem_append_left h

/-- The candidate loop never writes an existing slot, and the store only
grows. -/
theorem bruteHeapValues_preserves (g : Field) (cell : Cell) :
    ∀ (l : List ℕ) (heap : List Field) (i : ℕ), i < heap.length →
      (bruteHeapValues heap g cell l).1.getD i ⟨[]⟩ = heap.getD i ⟨[]⟩ ∧
        heap.length ≤ (bruteHeapValues heap g cell l).1.length
  | [], heap, i, hi => ⟨rfl, le_refl _⟩
  | v :: rest, heap, i, hi => by
    unfold bruteHeapValues
    dsimp only
    have hkey : ∀ x : Field, ((heap ++ [g]).set heap.length x).getD i ⟨[]⟩ =
        heap.getD i ⟨[]⟩ := by
      intro x
      rw [getD_set_ne _ _ _ (by omega)]
      exact getD_append_left heap [g] ⟨[]⟩ hi
    have hlen : ∀ x : Field,
        ((heap ++ [g]).set heap.length x).length = heap.length + 1 := by
      intro x
      simp
    split
    · have ih := bruteHeapValues_preserves g cell rest
        ((heap ++ [g]).set heap.length
          (g.setCellValue cell.column cell.row (some v))) i
        (by rw [hlen]; omega)
      refine ⟨?_, ?_⟩
      · show (bruteHeapValues ((heap ++ [g]).set heap.length
            (g.setCellValue cell.column cell.row (some v))) g cell
            rest).1.getD i ⟨[]⟩ = heap.getD i ⟨[]⟩
        rw [ih.1, hkey]
      · show heap.length ≤ (bruteHeapValues ((heap ++ [g]).set heap.length
            (g.setCellValue cell.column cell.row (some v))) g cell
            rest).1.length
        have h2 := ih.2
        rw [hlen] at h2
        omega
    · split
      · exact ⟨hkey _, by rw [hlen]; omega⟩
      · have ih := bruteHeapValues_preserves g cell rest
          ((heap ++ [g]).set heap.length
            (g.setCellValue cell.column cell.row (some v))) i
          (by rw [hlen]; omega)
        refine ⟨?_, ?_⟩
        · show (bruteHeapValues ((heap ++ [g]).set heap.length
              (g.setCellValue cell.column cell.row (some v))) g cell
              rest).1.getD i ⟨[]⟩ = heap.getD i ⟨[]⟩
          rw [ih.1, hkey]
        · show heap.length ≤ (bruteHeapValues ((heap ++ [g]).set heap.length
              (g.setCellValue cell.column cell.row (some v))) g cell
              rest).1.length
          have h2 := ih.2
          rw [hlen] at h2
          omega

/-- The backtracking loop never writes a slot that existed when it
started. -/
theorem bruteHeapLoop_preserves :
    ∀ (fuel : ℕ) (heap : List Field) (stack : List ℕ) (i : ℕ),
      i < heap.length →
      (bruteHeapLoop fuel heap stack).1.getD i ⟨[]⟩ = heap.getD i ⟨[]⟩
  | 0, _, _, _, _ => rfl
  | _ + 1, _, [], _, _ => rfl
  | fuel + 1, heap, j :: stack, i, hi => by
    unfold bruteHeapLoop
    cases (heap.getD j ⟨[]⟩).firstEmptyCell with
    | none => exact bruteHeapLoop_preserves fuel heap stack i hi
    | some cell =>
      dsimp only
      cases get_possible_values (heap.getD j ⟨[]⟩) cell with
      | error e => exact bruteHeapLoop_preserves fuel heap stack i hi
      | ok possible =>
        dsimp only
        have hpres := bruteHeapValues_preserves (heap.getD j ⟨[]⟩) cell
          (iterSet possible) heap i hi
        cases hbv : bruteHeapValues heap (heap.getD j ⟨[]⟩) cell
            (iterSet possible) with
        | mk heap1 pr =>
          rw [hbv] at hpres
          obtain ⟨ids, sol⟩ := pr
          cases sol with
          | some s => exact hpres.1
          | none =>
            dsimp only
            rw [bruteHeapLoop_preserves fuel heap1 (ids.reverse ++ stack) i
              (lt_of_lt_of_le hi hpres.2)]
            exact hpres.1

/-- C7: the backtracking search never changes the caller's grid: after the
store-indexed search returns, with or without a solution and whatever the
fuel, slot 0 (the grid the caller passed in) still holds exactly the grid it
held before the call; only the freshly allocated deep copies were written. -/
theorem C7_brute_force_frame (field : Field) (fuel : ℕ) :
    (brute_force_heap field fuel).1.getD 0 ⟨[]⟩ = field := by
  unfold brute_force_heap
  rw [bruteHeapLoop_preserves fuel ([field] ++ [field]) [1] 0 (by simp)]
  rfl

/-! Characterisation of the tier-2 elimination. -/

/-- Spec-side horizontal locking: some box with the cell's box-row but a
different box-column has the value as a tier-1 candidate only on rows equal
to the cell's row. -/
def horizontalLock (field : Field) (cell : Cell) (v : ℕ) : Prop :=
  ∃ bc, bc < 3 ∧ bc ≠ cell.square_coords.1 ∧
    rowSetFor field (field.get_square bc cell.square_coords.2) v = {cell.row}

/-- Spec-side vertical locking: some box with the cell's box-column but a
different box-row has the value as a tier-1 candidate only on columns equal
to the cell's column. -/
def verticalLock (field : Field) (cell : Cell) (v : ℕ) : Prop :=
  ∃ br, br < 3 ∧ br ≠ cell.square_coords.2 ∧
    colSetFor field (field.get_square cell.square_coords.1 br) v =
      {cell.column}

/-- The squares generator yields exactly the nine boxes. -/
theorem mem_squaresList {f : Field} {sq : Square} :
    sq ∈ f.squaresList ↔ ∃ i, i < 3 ∧ ∃ j, j < 3 ∧ sq = f.get_square i j := by
  unfold Field.squaresList
  rw [List.mem_flatMap]
  constructor
  · rintro ⟨i, hi, hmem⟩
    rw [List.mem_map] at hmem
    obtain ⟨j, hj, rfl⟩ := hmem
    exact ⟨i, List.mem_range.mp hi, j, List.mem_range.mp hj, rfl⟩
  · rintro ⟨i, hi, j, hj, rfl⟩
    exact ⟨i, List.mem_range.mpr hi,
      List.mem_map_of_mem _ (List.mem_range.mpr hj)⟩

/-- A box view records the box coordinates it was asked for. -/
theorem get_square_coords (f : Field) (i j : ℕ) :
    (f.get_square i j).column = i ∧ (f.get_square i j).row = j :=
  ⟨rfl, rfl⟩

/-- Membership after the horizontal elimination passes: the value survives
exactly if it was there and no processed square eliminates it. -/
theorem foldl_H_mem (field : Field) (cell : Cell) (csr csc : ℕ) :
    ∀ (l : List Square) (t : Finset ℕ) (v : ℕ),
      (v ∈ l.foldl (fun s sq => if sq.row ≠ csr ∨ sq.column = csc then s
          else s.filter (fun w => ¬ rowSetFor field sq w = {cell.row})) t ↔
        v ∈ t ∧ ∀ sq ∈ l, sq.row = csr → sq.column ≠ csc →
          ¬ rowSetFor field sq v = {cell.row})
  | [], t, v => by simp
  | sq :: l, t, v => by
    rw [List.foldl_cons, foldl_H_mem field cell csr csc l _ v,
      List.forall_mem_cons]
    by_cases hg : sq.row ≠ csr ∨ sq.column = csc
    · rw [if_pos hg]
      rcases hg with hg1 | hg2
      · constructor
        · rintro ⟨h1, h2⟩
          exact ⟨h1, fun hr => absurd hr hg1, h2⟩
        · rintro ⟨h1, -, h2⟩
          exact ⟨h1, h2⟩
      · constructor
        · rintro ⟨h1, h2⟩
          exact ⟨h1, fun _ hc => absurd hg2 hc, h2⟩
        · rintro ⟨h1, -, h2⟩
          exact ⟨h1, h2⟩
    · rw [if_neg hg]
      push_neg at hg
      rw [Finset.mem_filter]
      constructor
      · rintro ⟨⟨h1, h3⟩, h2⟩
        exact ⟨h1, fun _ _ => h3, h2⟩
      · rintro ⟨h1, h3, h2⟩
        exact ⟨⟨h1, h3 hg.1 hg.2⟩, h2⟩

/-- Membership after the vertical elimination passes. -/
theorem foldl_V_mem (field : Field) (cell : Cell) (csr csc : ℕ) :
    ∀ (l : List Square) (t : Finset ℕ) (v : ℕ),
      (v ∈ l.foldl (fun s sq => if sq.row = csr ∨ sq.column ≠ csc then s
          else s.filter (fun w => ¬ colSetFor field sq w = {cell.column})) t ↔
        v ∈ t ∧ ∀ sq ∈ l, sq.row ≠ csr → sq.column = csc →
          ¬ colSetFor field sq v = {cell.column})
  | [], t, v => by simp
  | sq :: l, t, v => by
    rw [List.foldl_cons, foldl_V_mem field cell csr csc l _ v,
      List.forall_mem_cons]
    by_cases hg : sq.row = csr ∨ sq.column ≠ csc
    · rw [if_pos hg]
      rcases hg with hg1 | hg2
      · constructor
        · rintro ⟨h1, h2⟩
          exact ⟨h1, fun hr => absurd hg1 hr, h2⟩
        · rintro ⟨h1, -, h2⟩
          exact ⟨h1, h2⟩
      · constructor
        · rintro ⟨h1, h2⟩
          exact ⟨h1, fun _ hc => absurd hc hg2, h2⟩
        · rintro ⟨h1, -, h2⟩
          exact ⟨h1, h2⟩
    · rw [if_neg hg]
      push_neg at hg
      rw [Finset.mem_filter]
      constructor
      · rintro ⟨⟨h1, h3⟩, h2⟩
        exact ⟨h1, fun _ _ => h3, h2⟩
      · rintro ⟨h1, h3, h2⟩
        exact ⟨⟨h1, h3 hg.1 hg.2⟩, h2⟩

/-- The per-square horizontal conditions over the nine squares say exactly
that no horizontal peer box locks the value. -/
theorem hlock_iff (field : Field) (cell : Cell) (v : ℕ)
    (hr : cell.row < 9) :
    (∀ sq ∈ field.squaresList, sq.row = cell.square_coords.2 →
      sq.column ≠ cell.square_coords.1 →
      ¬ rowSetFor field sq v = {cell.row}) ↔
    ¬ horizontalLock field cell v := by
  constructor
  · intro h hlock
    obtain ⟨bc, hbc3, hbcne, hset⟩ := hlock
    refine h (field.get_square bc cell.square_coords.2) ?_ rfl hbcne hset
    rw [mem_squaresList]
    have hcsr : cell.square_coords.2 < 3 := by
      unfold Cell.square_coords
      omega
    exact ⟨bc, hbc3, cell.square_coords.2, hcsr, rfl⟩
  · intro h sq hsq hrow hcol hset
    apply h
    rw [mem_squaresList] at hsq
    obtain ⟨i, hi, j, hj, rfl⟩ := hsq
    have hco := get_square_coords field i j
    refine ⟨i, hi, ?_, ?_⟩
    · rw [← hco.1]
      exact hcol
    · have hj2 : j = cell.square_coords.2 := by rw [← hco.2, hrow]
      rw [← hj2]
      exact hset

/-- The per-square vertical conditions over the nine squares say exactly
that no vertical peer box locks the value. -/
theorem vlock_iff (field : Field) (cell : Cell) (v : ℕ)
    (hc : cell.column < 9) :
    (∀ sq ∈ field.squaresList, sq.row ≠ cell.square_coords.2 →
      sq.column = cell.square_coords.1 →
      ¬ colSetFor field sq v = {cell.column}) ↔
    ¬ verticalLock field cell v := by
  constructor
  · intro h hlock
    obtain ⟨br, hbr3, hbrne, hset⟩ := hlock
    refine h (field.get_square cell.square_coords.1 br) ?_ hbrne rfl hset
    rw [mem_squaresList]
    have hcsc : cell.square_coords.1 < 3 := by
      unfold Cell.square_coords
      omega
    exact ⟨cell.square_coords.1, hcsc, br, hbr3, rfl⟩
  · intro h sq hsq hrow hcol hset
    apply h
    rw [mem_squaresList] at hsq
    obtain ⟨i, hi, j, hj, rfl⟩ := hsq
    have hco := get_square_coords field i j
    refine ⟨j, hj, ?_, ?_⟩
    · rw [← hco.2]
      exact hrow
    · have hi2 : i = cell.square_coords.1 := by rw [← hco.1, hcol]
      rw [← hi2]
      exact hset

/-- C1: for an empty cell, the tier-2 candidate set is the tier-1 candidate
set minus exactly the values locked onto the cell's line by some horizontal
or vertical peer box; a filled cell gets the empty set. -/
theorem C1_tier2_spec (field : Field) (cell : Cell)
    (hc : cell.column < 9) (hr : cell.row < 9) :
    (cell.value ≠ none → get_possible_value_tier_2 field cell = ∅) ∧
    (cell.value = none → ∀ v,
      (v ∈ get_possible_value_tier_2 field cell ↔
        v ∈ get_possible_value_tier_1 field cell ∧
          ¬ horizontalLock field cell v ∧ ¬ verticalLock field cell v)) := by
  constructor
  · intro hne
    unfold get_possible_value_tier_2
    cases hcv : cell.value with
    | some w => rfl
    | none => exact absurd hcv hne
  · intro hcv v
    unfold get_possible_value_tier_2
    rw [hcv]
    dsimp only
    rw [foldl_V_mem field cell cell.square_coords.2 cell.square_coords.1
      field.squaresList _ v]
    rw [foldl_H_mem field cell cell.square_coords.2 cell.square_coords.1
      field.squaresList _ v]
    rw [hlock_iff field cell v hr, vlock_iff field cell v hc]
    tauto

/-- C1 witness: instantiated at the concrete empty cell (0, 0), value 1
survives tier 2 exactly because it is a tier-1 candidate and no peer box
locks it. -/
theorem C1_witness :
    1 ∈ get_possible_value_tier_2 fTwoEmpty (fTwoEmpty.get_cell 0 0) ↔
      1 ∈ get_possible_value_tier_1 fTwoEmpty (fTwoEmpty.get_cell 0 0) ∧
        ¬ horizontalLock fTwoEmpty (fTwoEmpty.get_cell 0 0) 1 ∧
        ¬ verticalLock fTwoEmpty (fTwoEmpty.get_cell 0 0) 1 :=
  (C1_tier2_spec fTwoEmpty (fTwoEmpty.get_cell 0 0)
    (by decide) (by decide)).2 (by decide) 1

end Sudoku
